import Mathlib

/-!
Verification of the streaming shard data pipeline of `open_flamingo`
(`src/open_flamingo/train/data.py`) against its natural-language design
specification.  Python functions are shallowly embedded as executable Lean
definitions; machine integers are modelled by `Nat`/`Int`, fallible code by
`Except`, and the pseudo-random generator by an explicit linear-congruential
state threaded through the definitions.
-/

namespace OFData

/-! ## Pseudo-random generator model

`random.Random` / `torch` PRNGs are external, deterministic-given-seed
generators.  They are modelled by an explicit linear congruential generator:
all the verified properties (determinism given the seed, sequence lengths,
membership of draws) are independent of the concrete generator function. -/

structure Rng where
  state : Nat
deriving Repr, DecidableEq

def rngStep (r : Rng) : Rng :=
  ⟨(r.state * 6364136223846793005 + 1442695040888963407) % 18446744073709551616⟩

/-- Draw a value below `n` (for `n > 0`) and return the advanced generator. -/
def randBelow (r : Rng) (n : Nat) : Nat × Rng :=
  let r2 := rngStep r
  (r2.state % n, r2)

/-- Seed a fresh generator from an integer seed (`rng.seed(s)`). -/
def mkRng (seed : Int) : Rng :=
  ⟨(seed % 18446744073709551616).toNat⟩

/-! ## PipelineDriver count arithmetic (`recompute_samples_stats`) -/

/-- Ceiling division on naturals, modelling `math.ceil(a / b)` for
non-negative operands (the float division of the source is modelled by exact
arithmetic). -/
def ceilDiv (a b : Nat) : Nat := (a + b - 1) / b

/-- From `recompute_samples_stats` (data.py lines 781-790): recompute
`(num_samples, num_batches, num_worker_batches)` from the supplied sample
count, with `floor` selecting `math.floor` instead of `math.ceil`. -/
def recompute_samples_stats (floorMode : Bool) (batch_size world_size workers num_samples : Nat) :
    Nat × Nat × Nat :=
  let round_fn : Nat → Nat → Nat := fun a b => if floorMode then a / b else ceilDiv a b
  let global_batch_size := batch_size * world_size
  let num_batches := round_fn num_samples global_batch_size
  let num_workers := max 1 workers
  let num_worker_batches := round_fn num_batches num_workers
  let num_batches2 := num_worker_batches * num_workers
  let num_samples2 := num_batches2 * global_batch_size
  (num_samples2, num_batches2, num_worker_batches)

/-- `n ≤ ceilDiv n g * g` for positive `g`. -/
theorem le_ceilDiv_mul (n g : Nat) (hg : 0 < g) : n ≤ ceilDiv n g * g := by
  rcases n with _ | m
  · simp
  · have hc : ceilDiv (m + 1) g = m / g + 1 := by
      unfold ceilDiv
      have h1 : m + 1 + g - 1 = m + g := by omega
      rw [h1, Nat.add_div_right _ hg]
    rw [hc, Nat.add_mul, Nat.one_mul]
    have hdm := Nat.div_add_mod m g
    have hlt : m % g < g := Nat.mod_lt m hg
    have h2 : g * (m / g) = m / g * g := Nat.mul_comm _ _
    omega

/-- C1: for positive `(batchSize, worldSize, numWorkers)` the recomputed counts
of `recompute_samples_stats` satisfy
`perWorkerBatches * numWorkers * batchSize * worldSize = recomputed totalSamples`
and `recomputed totalBatches = perWorkerBatches * numWorkers`, in both rounding
modes. -/
theorem recompute_samples_stats_invariant (floorMode : Bool) (b w k n : Nat)
    (hb : 0 < b) (hw : 0 < w) (hk : 0 < k) (hn : 0 < n) :
    (recompute_samples_stats floorMode b w k n).2.2 * k * b * w
        = (recompute_samples_stats floorMode b w k n).1 ∧
    (recompute_samples_stats floorMode b w k n).2.1
        = (recompute_samples_stats floorMode b w k n).2.2 * k := by
  have hmax : max 1 k = k := Nat.max_eq_right hk
  constructor
  · simp only [recompute_samples_stats, hmax]
    ring
  · simp only [recompute_samples_stats, hmax]

theorem recompute_samples_stats_invariant_witness :
    (recompute_samples_stats false 4 2 3 100).2.2 * 3 * 4 * 2
        = (recompute_samples_stats false 4 2 3 100).1 ∧
    (recompute_samples_stats false 4 2 3 100).2.1
        = (recompute_samples_stats false 4 2 3 100).2.2 * 3 :=
  recompute_samples_stats_invariant false 4 2 3 100 (by decide) (by decide) (by decide)
    (by decide)

/-- C10: the recomputation is monotone in the rounding mode: with ceil rounding
(`floor=False`) the recomputed sample count is at least the supplied one, with
floor rounding it is at most the supplied one. -/
theorem recompute_samples_stats_monotone (b w k n : Nat)
    (hb : 0 < b) (hw : 0 < w) (hk : 0 < k) (hn : 0 < n) :
    n ≤ (recompute_samples_stats false b w k n).1 ∧
    (recompute_samples_stats true b w k n).1 ≤ n := by
  have hmax : max 1 k = k := Nat.max_eq_right hk
  have hg : 0 < b * w := Nat.mul_pos hb hw
  constructor
  · simp only [recompute_samples_stats, hmax, if_neg (Bool.false_ne_true)]
    calc n ≤ ceilDiv n (b * w) * (b * w) := le_ceilDiv_mul n (b * w) hg
      _ ≤ ceilDiv (ceilDiv n (b * w)) k * k * (b * w) := by
          have := le_ceilDiv_mul (ceilDiv n (b * w)) k hk
          exact Nat.mul_le_mul_right _ this
  · simp only [recompute_samples_stats, hmax, if_pos rfl]
    calc n / (b * w) / k * k * (b * w)
        ≤ n / (b * w) * (b * w) := Nat.mul_le_mul_right _ (Nat.div_mul_le_self _ _)
      _ ≤ n := Nat.div_mul_le_self _ _

theorem recompute_samples_stats_monotone_witness :
    100 ≤ (recompute_samples_stats false 4 2 3 100).1 ∧
    (recompute_samples_stats true 4 2 3 100).1 ≤ 100 :=
  recompute_samples_stats_monotone 4 2 3 100 (by decide) (by decide) (by decide) (by decide)

/-! ## Dataset sizing (`get_dataset_size`, `get_shard_stats`) -/

/-- The directory next to the shards, as observed by `get_dataset_size`:
an optional `sizes.json` sidecar (shard basename -> element count) and an
optional `__len__` integer file.  Shard paths are modelled by their
basenames. -/
structure ShardDir where
  sizes_json : Option (List (String × Nat))
  len_file : Option Nat

/-- From `get_dataset_size` (data.py lines 69-95): derive the total sample
count from `sizes.json` (missing shards count 0) or from `__len__`, else
`none`; also return the number of shards in the expanded list. -/
def get_dataset_size (dir : ShardDir) (shards_list : List String) : Option Nat × Nat :=
  match dir.sizes_json with
  | some sizes =>
      (some ((shards_list.map (fun shard =>
          match sizes.lookup shard with
          | some v => v
          | none => 0)).sum),
        shards_list.length)
  | none =>
      match dir.len_file with
      | some total => (some total, shards_list.length)
      | none => (none, shards_list.length)

/-- Python truthiness of an optional integer (`None` and `0` are falsy). -/
def truthyOptNat : Option Nat → Bool
  | none => false
  | some n => n != 0

/-- From `get_shard_stats` (data.py lines 792-802).  The source computes
`num_samples` via `get_dataset_size` and then immediately overwrites it with
`None` (`num_samples = None`), so the explicit `train_num_samples` hint is
required in every case; otherwise a `RuntimeError` is raised. -/
def get_shard_stats (dir : ShardDir) (shards_list : List String)
    (train_num_samples : Option Nat) : Except String (Nat × Nat) :=
  let s := get_dataset_size dir shards_list
  let num_samples : Option Nat := none
  let num_samples := if truthyOptNat num_samples then num_samples else train_num_samples
  if truthyOptNat num_samples then .ok (num_samples.getD 0, s.2)
  else .error "Currently, number of dataset samples must be specified for training dataset."

/-- C5 counterexample: with a `sizes.json` sidecar present next to the single
shard (so `get_dataset_size` does derive a total of 7) and no explicit hint,
`get_shard_stats` still fails, because the source discards the derived size
(`num_samples = None`). -/
theorem get_shard_stats_ignores_sidecar :
    (get_dataset_size ⟨some [("shard-000.tar", 7)], none⟩ ["shard-000.tar"]).1 = some 7 ∧
    get_shard_stats ⟨some [("shard-000.tar", 7)], none⟩ ["shard-000.tar"] none
      = .error "Currently, number of dataset samples must be specified for training dataset." :=
  ⟨rfl, rfl⟩

/-- The shard count returned by `get_dataset_size` is the expanded list's
length in every branch. -/
theorem get_dataset_size_snd (dir : ShardDir) (sl : List String) :
    (get_dataset_size dir sl).2 = sl.length := by
  rcases dir with ⟨sj, lf⟩
  cases sj <;> cases lf <;> rfl

/-- Closed-form behaviour of `get_shard_stats`: the result depends only on
the truthiness of the explicit hint. -/
theorem get_shard_stats_spec (dir : ShardDir) (sl : List String) (hint : Option Nat) :
    get_shard_stats dir sl hint =
      if truthyOptNat hint = true then .ok (hint.getD 0, sl.length)
      else .error
        "Currently, number of dataset samples must be specified for training dataset." := by
  show (if truthyOptNat hint = true
      then Except.ok (hint.getD 0, (get_dataset_size dir sl).2)
      else Except.error
        "Currently, number of dataset samples must be specified for training dataset.") = _
  rw [get_dataset_size_snd]

/-- C5 amended: construction succeeds exactly when the explicit
`train_num_samples` hint is a truthy (nonzero) value, regardless of either
size-hint source; on success the returned count is the hint itself, not the
sidecar-derived size. -/
theorem get_shard_stats_requires_hint (dir : ShardDir) (shards_list : List String)
    (hint : Option Nat) :
    ((∃ v, get_shard_stats dir shards_list hint = .ok v) ↔ truthyOptNat hint = true) ∧
    (truthyOptNat hint = true →
      get_shard_stats dir shards_list hint = .ok (hint.getD 0, shards_list.length)) := by
  rw [get_shard_stats_spec]
  by_cases ht : truthyOptNat hint = true
  · simp [ht]
  · simp [ht]

theorem get_shard_stats_requires_hint_witness :
    get_shard_stats ⟨some [("shard-000.tar", 7)], none⟩ ["s0", "s1"] (some 64)
      = .ok (64, 2) :=
  (get_shard_stats_requires_hint ⟨some [("shard-000.tar", 7)], none⟩ ["s0", "s1"]
    (some 64)).2 (by decide)

/-! ## Batch assembly (`wds.batched(batch_size, partial=False)`) -/

/-- Modelled from the spec: `wds.batched(batch_size, partial=False)` (external
webdataset code used at data.py lines 505 and 711) groups the accepted sample
stream into consecutive groups of exactly `batchSize` elements and discards a
trailing group smaller than `batchSize` (spec section 4.8: "A trailing group
smaller than `batchSize` at stream end is discarded — batches are never
partial"). -/
def batchedNoPartial (n : Nat) (xs : List α) : List (List α) :=
  if h : n = 0 ∨ xs.length < n then []
  else xs.take n :: batchedNoPartial n (xs.drop n)
termination_by xs.length
decreasing_by
  simp only [List.length_drop]
  omega

/-- All emitted batches have length exactly `n`. -/
theorem batchedNoPartial_lengths (n : Nat) (hn : 0 < n) (xs : List α) :
    ∀ b ∈ batchedNoPartial n xs, b.length = n := by
  suffices hall : ∀ (L : Nat) (ys : List α), ys.length = L →
      ∀ b ∈ batchedNoPartial n ys, b.length = n from hall xs.length xs rfl
  intro L
  induction L using Nat.strong_induction_on with
  | _ L ih =>
    intro ys hL
    rw [batchedNoPartial]
    split
    · intro b hb
      exact absurd hb (List.not_mem_nil b)
    · rename_i hcond
      push_neg at hcond
      intro b hb
      rcases List.mem_cons.mp hb with hb1 | hb2
      · subst hb1
        simp only [List.length_take]
        omega
      · exact ih (ys.drop n).length (by simp; omega) (ys.drop n) rfl b hb2

/-- The number of emitted batches is `xs.length / n` and their concatenation
is the prefix of the stream of length `xs.length / n * n`: the trailing
remainder is discarded, never emitted. -/
theorem batchedNoPartial_flatten (n : Nat) (hn : 0 < n) (xs : List α) :
    (batchedNoPartial n xs).length = xs.length / n ∧
    (batchedNoPartial n xs).flatten = xs.take (xs.length / n * n) := by
  suffices hall : ∀ (L : Nat) (ys : List α), ys.length = L →
      (batchedNoPartial n ys).length = ys.length / n ∧
      (batchedNoPartial n ys).flatten = ys.take (ys.length / n * n) from
    hall xs.length xs rfl
  intro L
  induction L using Nat.strong_induction_on with
  | _ L ih =>
    intro ys hL
    by_cases hc : n = 0 ∨ ys.length < n
    · rw [batchedNoPartial, dif_pos hc]
      rcases hc with h0 | hlt
      · omega
      · have hz : ys.length / n = 0 := Nat.div_eq_of_lt hlt
        simp [hz]
    · rw [batchedNoPartial, dif_neg hc]
      push_neg at hc
      obtain ⟨h0, hge⟩ := hc
      have hdiv : ys.length / n = (ys.length - n) / n + 1 :=
        Nat.div_eq_sub_div hn hge
      have ihd := ih (ys.drop n).length (by simp; omega) (ys.drop n) rfl
      refine ⟨?_, ?_⟩
      · simp only [List.length_cons, ihd.1, List.length_drop]
        omega
      · have hjoin : (ys.take n :: batchedNoPartial n (ys.drop n)).flatten
            = ys.take n ++ (batchedNoPartial n (ys.drop n)).flatten := rfl
        rw [hjoin, ihd.2, List.length_drop, ← List.take_add]
        congr 1
        rw [hdiv]
        ring

/-- C9: every batch emitted by the batching stage contains exactly
`batchSize` samples; the emitted batches are the consecutive `batchSize`-sized
groups of the accepted-sample stream and the trailing remainder smaller than
`batchSize` is discarded, never emitted. -/
theorem batched_never_partial (n : Nat) (hn : 0 < n) (xs : List α) :
    (∀ b ∈ batchedNoPartial n xs, b.length = n) ∧
    (batchedNoPartial n xs).length = xs.length / n ∧
    (batchedNoPartial n xs).flatten = xs.take (xs.length / n * n) :=
  ⟨batchedNoPartial_lengths n hn xs, batchedNoPartial_flatten n hn xs⟩

theorem batched_never_partial_witness :
    (∀ b ∈ batchedNoPartial 2 [10, 20, 30, 40, 50], b.length = 2) ∧
    (batchedNoPartial 2 [10, 20, 30, 40, 50]).length = [10, 20, 30, 40, 50].length / 2 ∧
    (batchedNoPartial 2 [10, 20, 30, 40, 50]).flatten
      = [10, 20, 30, 40, 50].take ([10, 20, 30, 40, 50].length / 2 * 2) :=
  batched_never_partial 2 (by decide) [10, 20, 30, 40, 50]

/-! ## SampleGrouper (`group_by_keys_nothrow`)

The grouper itself (data.py lines 120-151) is repository code; the helpers
`base_plus_ext` and `valid_sample` it imports from webdataset are external
and are modelled from the spec.  Payloads are modelled as opaque strings. -/

/-- One `(fname, data)` tuple produced by the tar expander, together with the
shard url the expander attaches (`filesample["__url__"]`). -/
structure WdsFile where
  fname : String
  data : String
  url : String
deriving Repr, DecidableEq

/-- The accumulator dict: `__key__`, `__url__` and the payload fields added
as `current_sample[suffix] = value`, in insertion order. -/
structure WdsSample where
  key : String
  url : String
  fields : List (String × String)
deriving Repr, DecidableEq

/-- `suffix.lower()`, computed over the character list. -/
def lowerStr (s : String) : String := (s.data.map Char.toLower).asString

/-- Split a character list at its last dot, if any. -/
def base_plus_ext_chars : List Char → Option (List Char × List Char)
  | [] => none
  | c :: cs =>
    match base_plus_ext_chars cs with
    | some (p, s) => some (c :: p, s)
    | none => if c = '.' then some ([], cs) else none

/-- Modelled from the spec (section 4.3: "prefix = filename without final
extension"): webdataset `base_plus_ext` splits an entry name into a nonempty
prefix and the final extension; a name without a dot yields no pair
(directory components are not modelled — entry names are plain file
names). -/
def base_plus_ext (fname : String) : Option (String × String) :=
  match base_plus_ext_chars fname.data with
  | some (p, s) => if p.isEmpty then none else some (p.asString, s.asString)
  | none => none

/-- `suffix in current_sample`: dict membership over the two bookkeeping keys
and the payload fields. -/
def sampleHasSuffix (s : WdsSample) (sfx : String) : Bool :=
  sfx == "__key__" || sfx == "__url__" || (s.fields.lookup sfx).isSome

/-- Modelled from the spec (section 4.3: flush "emit it if it contains at
least one valid field"): webdataset `valid_sample` accepts any non-`None`
accumulated sample that carries at least one payload field (the accumulator
always also holds `__key__`/`__url__`). -/
def valid_sample : Option WdsSample → Bool
  | none => false
  | some s => !s.fields.isEmpty

/-- `suffixes is None or suffix in suffixes`. -/
def allowSuffix : Option (List String) → String → Bool
  | none, _ => true
  | some l, sfx => l.contains sfx

/-- `current_sample[suffix] = value`. -/
def addField (s : WdsSample) (sfx v : String) : WdsSample :=
  { s with fields := s.fields ++ [(sfx, v)] }

/-- From `group_by_keys_nothrow` (data.py lines 120-151): coalesce
consecutive tuples sharing a key prefix into one sample; flush (and emit if
valid) when the prefix changes or the suffix is already present; at stream
end flush the final accumulator. -/
def group_by_keys_nothrow (keys : String → Option (String × String)) (lcase : Bool)
    (suffixes : Option (List String)) :
    List WdsFile → Option WdsSample → List WdsSample
  | [], cur => if valid_sample cur then cur.toList else []
  | f :: rest, cur =>
    match keys f.fname with
    | none => group_by_keys_nothrow keys lcase suffixes rest cur
    | some pe =>
      let sfx := if lcase then lowerStr pe.2 else pe.2
      let needFlush : Bool :=
        match cur with
        | none => true
        | some s => pe.1 != s.key || sampleHasSuffix s sfx
      let emitted := if needFlush && valid_sample cur then cur.toList else []
      let base : WdsSample :=
        if needFlush then { key := pe.1, url := f.url, fields := [] }
        else cur.getD { key := pe.1, url := f.url, fields := [] }
      let next := if allowSuffix suffixes sfx then addField base sfx f.data else base
      emitted ++ group_by_keys_nothrow keys lcase suffixes rest (some next)

/-- The concrete tuple stream of the claim:
`[("a.jpg", img), ("a.txt", "hi"), ("b.jpg", img2)]`. -/
def grouperDemoInput : List WdsFile :=
  [⟨"a.jpg", "img", "u"⟩, ⟨"a.txt", "hi", "u"⟩, ⟨"b.jpg", "img2", "u"⟩]

/-- C4 counterexample: on the claim's input the grouper emits TWO samples,
not one — the end-of-stream flush also emits the single-field group for
prefix "b", because the flush validity test only requires at least one
payload field.  The incomplete group is therefore forwarded by the grouper. -/
theorem group_by_keys_emits_incomplete_tail :
    group_by_keys_nothrow base_plus_ext true none grouperDemoInput none
      = [⟨"a", "u", [("jpg", "img"), ("txt", "hi")]⟩,
         ⟨"b", "u", [("jpg", "img2")]⟩] := by
  rfl

/-- From `filter_no_caption_or_no_image` (data.py lines 108-111). -/
def filter_no_caption_or_no_image (s : WdsSample) : Bool :=
  (s.fields.lookup "txt").isSome &&
    ((s.fields.lookup "png").isSome || (s.fields.lookup "jpg").isSome ||
      (s.fields.lookup "jpeg").isSome)

/-- C4 amended: the grouper emits both the complete "a" group and the
jpg-only "b" group; the incomplete group is discarded downstream by the
pairing filter `filter_no_caption_or_no_image` (the `wds.select` stage), not
by the grouper itself. -/
theorem group_by_keys_incomplete_dropped_by_filter :
    (group_by_keys_nothrow base_plus_ext true none grouperDemoInput none).length = 2 ∧
    filter_no_caption_or_no_image ⟨"a", "u", [("jpg", "img"), ("txt", "hi")]⟩ = true ∧
    filter_no_caption_or_no_image ⟨"b", "u", [("jpg", "img2")]⟩ = false ∧
    (group_by_keys_nothrow base_plus_ext true none grouperDemoInput none).filter
        filter_no_caption_or_no_image
      = [⟨"a", "u", [("jpg", "img"), ("txt", "hi")]⟩] :=
  ⟨rfl, rfl, rfl, rfl⟩

/-! ## List helper lemmas -/

theorem getD_eq_get (l : List α) (k : Nat) (h : k < l.length) (d : α) :
    l.getD k d = l.get ⟨k, h⟩ := by
  induction l generalizing k with
  | nil => simp at h
  | cons a as ih =>
    cases k with
    | zero => rfl
    | succ k => exact ih k (by simpa using Nat.lt_of_succ_lt_succ h)

/-- A list is a permutation of its `k`-th element consed on the list with the
`k`-th element removed. -/
theorem perm_get_cons_eraseIdx (l : List α) (k : Nat) (h : k < l.length) :
    List.Perm l (l.get ⟨k, h⟩ :: l.eraseIdx k) := by
  induction l generalizing k with
  | nil => simp at h
  | cons a as ih =>
    cases k with
    | zero => simp [List.eraseIdx]
    | succ k =>
      have hk : k < as.length := by simpa using Nat.lt_of_succ_lt_succ h
      have h1 : List.Perm (a :: as) (a :: (as.get ⟨k, hk⟩ :: as.eraseIdx k)) :=
        List.Perm.cons a (ih k hk)
      have h2 : List.Perm (a :: (as.get ⟨k, hk⟩ :: as.eraseIdx k))
          (as.get ⟨k, hk⟩ :: a :: as.eraseIdx k) := List.Perm.swap _ _ _
      exact h1.trans h2

/-- Replacing the `k`-th element by `x` and emitting the old value is a
permutation-preserving exchange. -/
theorem perm_cons_set (l : List α) (k : Nat) (x : α) (h : k < l.length) :
    List.Perm (l.get ⟨k, h⟩ :: l.set k x) (x :: l) := by
  induction l generalizing k with
  | nil => simp at h
  | cons a as ih =>
    cases k with
    | zero => simpa [List.set] using List.Perm.swap x a as
    | succ k =>
      have hk : k < as.length := by simpa using Nat.lt_of_succ_lt_succ h
      have h1 : List.Perm (as.get ⟨k, hk⟩ :: a :: as.set k x)
          (a :: as.get ⟨k, hk⟩ :: as.set k x) := List.Perm.swap a _ _
      have h2 : List.Perm (a :: as.get ⟨k, hk⟩ :: as.set k x) (a :: x :: as) :=
        List.Perm.cons a (ih k hk)
      have h3 : List.Perm (a :: x :: as) (x :: a :: as) := List.Perm.swap x a as
      exact (h1.trans h2).trans h3

/-! ## DeterministicShuffle (`detshuffle2` and webdataset `_shuffle`)

`detshuffle2.run` (data.py lines 178-205) reads the epoch from the shared
cell, seeds a fresh `random.Random` with `seed + epoch` (or a worker-specific
seed plus the epoch when `seed < 0`) and hands the stream to webdataset's
`_shuffle`.  `_shuffle` itself is external library code; it is modelled from
the spec (section 4.5): a bounded reservoir holding at most
`min initial bufsize` elements is filled before anything is emitted; then each
incoming element replaces a uniformly-drawn buffered element, which is
emitted; at stream end the buffer is drained in random order. -/

/-- Drain the reservoir in random order (one uniform draw per element). -/
def drainBuf : List α → Rng → List α
  | [], _ => []
  | x :: xs, r =>
    ((x :: xs).getD (randBelow r (xs.length + 1)).1 x) ::
      drainBuf ((x :: xs).eraseIdx (randBelow r (xs.length + 1)).1) (randBelow r (xs.length + 1)).2
termination_by buf _ => buf.length
decreasing_by
  have hk : (randBelow r (xs.length + 1)).1 < (x :: xs).length := by
    simpa using Nat.mod_lt _ (Nat.succ_pos xs.length)
  have := List.length_eraseIdx_add_one hk
  omega

/-- Streaming phase: fill the reservoir to `m` elements, then exchange each
incoming element against a uniformly-drawn buffered one; drain at the end. -/
def shuffleRun (m : Nat) : List α → List α → Rng → List α
  | [], buf, r => drainBuf buf r
  | x :: rest, buf, r =>
    if buf.length < m then
      shuffleRun m rest (buf ++ [x]) r
    else
      (buf.getD (randBelow r buf.length).1 x) ::
        shuffleRun m rest (buf.set (randBelow r buf.length).1 x) (randBelow r buf.length).2

/-- Modelled from the spec (section 4.5): webdataset `_shuffle` with reservoir
capacity `bufsize` and fill threshold `initial` (the threshold is clamped to
the capacity). -/
def detShuffle (bufsize initial : Nat) (r : Rng) (xs : List α) : List α :=
  shuffleRun (min initial bufsize) xs [] r

/-- From `detshuffle2.run` (data.py lines 191-205) with the epoch read from
the `SharedEpoch` cell: the generator is freshly seeded with `seed + epoch`
when `seed ≥ 0`, else with a worker-specific seed plus the epoch. -/
def detshuffle2_run (bufsize initial : Nat) (seed epoch workerSeed : Int)
    (src : List α) : List α :=
  detShuffle bufsize initial
    (mkRng (if seed < 0 then workerSeed + epoch else seed + epoch)) src

/-- Draining emits a permutation of the reservoir. -/
theorem drainBuf_perm (buf : List α) (r : Rng) : List.Perm (drainBuf buf r) buf := by
  suffices hall : ∀ (L : Nat) (b : List α), b.length = L → ∀ r : Rng,
      List.Perm (drainBuf b r) b from hall buf.length buf rfl r
  intro L
  induction L using Nat.strong_induction_on with
  | _ L ih =>
    intro b hL r
    match b with
    | [] => simp [drainBuf]
    | x :: xs =>
      rw [drainBuf]
      have hk : (randBelow r (xs.length + 1)).1 < (x :: xs).length := by
        simpa using Nat.mod_lt _ (Nat.succ_pos xs.length)
      rw [getD_eq_get _ _ hk]
      have hlen : ((x :: xs).eraseIdx (randBelow r (xs.length + 1)).1).length < L := by
        have := List.length_eraseIdx_add_one hk
        simp only [List.length_cons] at hL this
        omega
      have hrec := ih _ hlen _ rfl (randBelow r (xs.length + 1)).2
      exact (List.Perm.cons _ hrec).trans (perm_get_cons_eraseIdx (x :: xs) _ hk).symm

/-- The shuffle emits a permutation of its input together with the initial
reservoir contents. -/
theorem shuffleRun_perm (m : Nat) (src : List α) :
    ∀ (buf : List α) (r : Rng), List.Perm (shuffleRun m src buf r) (src ++ buf) := by
  induction src with
  | nil => intro buf r; simpa using drainBuf_perm buf r
  | cons x rest ih =>
    intro buf r
    rw [shuffleRun]
    by_cases hlt : buf.length < m
    · rw [if_pos hlt]
      refine (ih (buf ++ [x]) r).trans ?_
      have h1 : rest ++ (buf ++ [x]) = (rest ++ buf) ++ [x] := (List.append_assoc _ _ _).symm
      rw [h1]
      exact List.perm_append_singleton x _
    · rw [if_neg hlt]
      rcases buf with _ | ⟨b, bs⟩
      · have h0 := ih ([] : List α) (randBelow r 0).2
        simp only [List.append_nil] at h0 ⊢
        exact List.Perm.cons x h0
      · have hk : (randBelow r (b :: bs).length).1 < (b :: bs).length := by
          simpa using Nat.mod_lt _ (Nat.succ_pos bs.length)
        rw [getD_eq_get _ _ hk]
        have hrec := List.Perm.cons ((b :: bs).get ⟨(randBelow r (b :: bs).length).1, hk⟩)
          (ih ((b :: bs).set (randBelow r (b :: bs).length).1 x)
            (randBelow r (b :: bs).length).2)
        have hmid : List.Perm
            ((b :: bs).get ⟨(randBelow r (b :: bs).length).1, hk⟩ ::
              (rest ++ (b :: bs).set (randBelow r (b :: bs).length).1 x))
            (rest ++ ((b :: bs).get ⟨(randBelow r (b :: bs).length).1, hk⟩ ::
              (b :: bs).set (randBelow r (b :: bs).length).1 x)) := List.perm_middle.symm
        have hset := List.Perm.append_left rest (perm_cons_set (b :: bs) _ x hk)
        have hlast : List.Perm (rest ++ (x :: (b :: bs))) (x :: (rest ++ (b :: bs))) :=
          List.perm_middle
        exact ((hrec.trans hmid).trans hset).trans hlast

/-- Nothing is emitted until the reservoir holds `m` elements: the run on any
stream equals the run that first moves `m - |buf|` input elements straight
into the reservoir. -/
theorem shuffleRun_fill (m : Nat) (src : List α) :
    ∀ (buf : List α) (r : Rng), buf.length ≤ m →
      shuffleRun m src buf r
        = shuffleRun m (src.drop (m - buf.length)) (buf ++ src.take (m - buf.length)) r := by
  induction src with
  | nil => intro buf r _; simp
  | cons x rest ih =>
    intro buf r h
    by_cases hlt : buf.length < m
    · have hd : m - buf.length = (m - (buf.length + 1)) + 1 := by omega
      rw [shuffleRun, if_pos hlt, hd]
      simp only [List.drop_succ_cons, List.take_succ_cons]
      rw [ih (buf ++ [x]) r (by simp; omega)]
      simp [List.append_assoc, Nat.sub_sub]
    · have hz : m - buf.length = 0 := by omega
      rw [hz]
      simp

/-- Largest reservoir size reached while streaming (mirrors the buffer-length
evolution of `shuffleRun`: the fill branch grows the buffer by one, the
exchange branch keeps its size). -/
def shuffleMaxBuf (m : Nat) : List α → Nat → Nat
  | [], b => b
  | _ :: rest, b =>
    if b < m then max (b + 1) (shuffleMaxBuf m rest (b + 1))
    else max b (shuffleMaxBuf m rest b)

theorem shuffleMaxBuf_le (m : Nat) (src : List α) :
    ∀ b : Nat, shuffleMaxBuf m src b ≤ max b m := by
  induction src with
  | nil => intro b; simp [shuffleMaxBuf]
  | cons x rest ih =>
    intro b
    rw [shuffleMaxBuf]
    by_cases hlt : b < m
    · rw [if_pos hlt]
      have := ih (b + 1)
      omega
    · rw [if_neg hlt]
      have := ih b
      omega

/-- C2: for `seed ≥ 0` and the epoch read from the shared cell, two
independent runs of `detshuffle2` (even on different workers) over the same
input produce the identical output order; the output is a permutation of the
input (the reservoir is drained at stream end); nothing is emitted before the
fill threshold is reached; and the reservoir never grows beyond `bufsize`. -/
theorem detshuffle2_deterministic {α : Type} (bufsize initial : Nat)
    (seed epoch ws1 ws2 : Int) (src : List α) (r : Rng) :
    (0 ≤ seed →
      detshuffle2_run bufsize initial seed epoch ws1 src
        = detshuffle2_run bufsize initial seed epoch ws2 src) ∧
    List.Perm (detshuffle2_run bufsize initial seed epoch ws1 src) src ∧
    detShuffle bufsize initial r src
      = shuffleRun (min initial bufsize) (src.drop (min initial bufsize))
          (src.take (min initial bufsize)) r ∧
    shuffleMaxBuf (min initial bufsize) src 0 ≤ bufsize := by
  refine ⟨?_, ?_, ?_, ?_⟩
  · intro hs
    have : ¬ seed < 0 := by omega
    simp [detshuffle2_run, this]
  · simpa using shuffleRun_perm (min initial bufsize) src [] _
  · simpa using shuffleRun_fill (min initial bufsize) src [] r (Nat.zero_le _)
  · have := shuffleMaxBuf_le (min initial bufsize) src 0
    omega

theorem detshuffle2_deterministic_witness :
    detshuffle2_run 3 2 5 2 100 [10, 20, 30, 40]
      = detshuffle2_run 3 2 5 2 200 [10, 20, 30, 40] ∧
    List.Perm (detshuffle2_run 3 2 5 2 100 [10, 20, 30, 40]) [10, 20, 30, 40] ∧
    detShuffle 3 2 (mkRng 7) [10, 20, 30, 40]
      = shuffleRun (min 2 3) ([10, 20, 30, 40].drop (min 2 3))
          ([10, 20, 30, 40].take (min 2 3)) (mkRng 7) ∧
    shuffleMaxBuf (min 2 3) [10, 20, 30, 40] 0 ≤ 3 :=
  ⟨(detshuffle2_deterministic 3 2 5 2 100 200 [10, 20, 30, 40] (mkRng 7)).1 (by decide),
    (detshuffle2_deterministic 3 2 5 2 100 200 [10, 20, 30, 40] (mkRng 7)).2.1,
    (detshuffle2_deterministic 3 2 5 2 100 200 [10, 20, 30, 40] (mkRng 7)).2.2.1,
    (detshuffle2_deterministic 3 2 5 2 100 200 [10, 20, 30, 40] (mkRng 7)).2.2.2⟩

/-! ## ShardSource resampling (`ResampledShards2`) -/

/-- The draw loop of `ResampledShards2.__iter__` (data.py lines 246-247):
`for _ in range(nshards): yield rng.choice(urls)` — `nshards` draws with
replacement from the shard pool. -/
def resampledIterGo (urls : List String) : Nat → Rng → List String
  | 0, _ => []
  | n + 1, r =>
    urls.getD (randBelow r urls.length).1 "" ::
      resampledIterGo urls n (randBelow r urls.length).2

/-- From `ResampledShards2.__iter__` (data.py lines 233-247) in deterministic
mode with the epoch read from the `SharedEpoch` cell: the generator is
re-seeded with `worker_seed() + epoch` and then `nshards` shard identifiers
are drawn with replacement. -/
def resampledShards2_iter (urls : List String) (nshards : Nat)
    (workerSeed epoch : Int) : List String :=
  resampledIterGo urls nshards (mkRng (workerSeed + epoch))

theorem resampledIterGo_length (urls : List String) (n : Nat) :
    ∀ r : Rng, (resampledIterGo urls n r).length = n := by
  induction n with
  | zero => intro r; rfl
  | succ n ih => intro r; simp [resampledIterGo, ih]

theorem resampledIterGo_mem (urls : List String) (hne : urls ≠ []) (n : Nat) :
    ∀ (r : Rng), ∀ u ∈ resampledIterGo urls n r, u ∈ urls := by
  induction n with
  | zero => intro r u hu; simp [resampledIterGo] at hu
  | succ n ih =>
    intro r u hu
    rw [resampledIterGo] at hu
    rcases List.mem_cons.mp hu with h1 | h2
    · subst h1
      have hlen : 0 < urls.length := List.length_pos.mpr hne
      have hk : (randBelow r urls.length).1 < urls.length := Nat.mod_lt _ hlen
      rw [getD_eq_get _ _ hk]
      exact List.get_mem urls _ _
    · exact ih _ u h2

/-- C3: in resampled deterministic mode the shard source draws exactly
`nshards` identifiers from the pool (with replacement), and the sequence is
fully determined by `seed + epoch`: equal derived seeds give the identical
sequence. -/
theorem resampled_shards_deterministic (urls : List String) (nshards : Nat)
    (ws1 e1 ws2 e2 : Int) :
    (resampledShards2_iter urls nshards ws1 e1).length = nshards ∧
    (ws1 + e1 = ws2 + e2 →
      resampledShards2_iter urls nshards ws1 e1
        = resampledShards2_iter urls nshards ws2 e2) ∧
    (urls ≠ [] → ∀ u ∈ resampledShards2_iter urls nshards ws1 e1, u ∈ urls) := by
  refine ⟨resampledIterGo_length urls nshards _, ?_, ?_⟩
  · intro hseed
    simp [resampledShards2_iter, hseed]
  · intro hne
    exact resampledIterGo_mem urls hne nshards _

theorem resampled_shards_deterministic_witness :
    (resampledShards2_iter ["a.tar", "b.tar"] 5 3 4).length = 5 ∧
    resampledShards2_iter ["a.tar", "b.tar"] 5 3 4
      = resampledShards2_iter ["a.tar", "b.tar"] 5 2 5 ∧
    ∀ u ∈ resampledShards2_iter ["a.tar", "b.tar"] 5 3 4, u ∈ ["a.tar", "b.tar"] :=
  ⟨(resampled_shards_deterministic ["a.tar", "b.tar"] 5 3 4 2 5).1,
    (resampled_shards_deterministic ["a.tar", "b.tar"] 5 3 4 2 5).2.1 (by decide),
    (resampled_shards_deterministic ["a.tar", "b.tar"] 5 3 4 2 5).2.2 (by decide)⟩

/-! ## Interleaved multi-image preprocessor

(data.py lines 544-689.)  An interleaved document is a pair of parallel lists
`interleaved_list` / `is_image`.  A list slot is either a text string or an
image; images arrive as base64 payloads and are decoded by `parse_image` —
decoding is modelled as the identity on an already-decoded image value
carrying its spatial dimensions, and image payloads that are not images are
classified as unwanted. -/

inductive Entry
  | str (s : String)
  | image (w h : Nat)
deriving Repr, DecidableEq

/-- `parse_image` (data.py lines 570-574): base64 + PIL decoding, modelled as
the identity on the pre-decoded image value. -/
def parse_image (e : Entry) : Entry := e

/-- From `is_unwanted_image` (data.py lines 576-582): an image with either
spatial dimension at most 10 pixels is an unwanted icon.  A non-image value
yields no usable image. -/
def is_unwanted_image : Entry → Bool
  | .image w h => decide (w ≤ 10) || decide (h ≤ 10)
  | .str _ => true

/-- From `remove_unwanted_images` (data.py lines 584-602): walk the zipped
lists, count the valid (not-unwanted) images, blank out unwanted images and
every valid image beyond the fifth; the returned count is the total number of
valid images seen (it may exceed 5).  Positions beyond the shorter list are
left untouched, as with Python's `zip`. -/
def removeUnwantedGo : Nat → List Entry → List Bool → Nat × List Entry × List Bool
  | n, e :: es, true :: bs =>
    let img := parse_image e
    let unw := is_unwanted_image img
    let n2 := if unw then n else n + 1
    if unw || decide (n2 > 5) then
      let r := removeUnwantedGo n2 es bs
      (r.1, Entry.str "" :: r.2.1, false :: r.2.2)
    else
      let r := removeUnwantedGo n2 es bs
      (r.1, img :: r.2.1, true :: r.2.2)
  | n, e :: es, false :: bs =>
    let r := removeUnwantedGo n es bs
    (r.1, e :: r.2.1, false :: r.2.2)
  | n, [], bs => (n, [], bs)
  | n, e :: es, [] => (n, e :: es, [])

def remove_unwanted_images (il : List Entry) (bl : List Bool) :
    Nat × List Entry × List Bool :=
  removeUnwantedGo 0 il bl

/-- Collapse each maximal run of characters satisfying `p` into the single
character `rep`; the flag records whether the previous character belonged to
a run. -/
def collapseRunsGo (p : Char → Bool) (rep : Char) : Bool → List Char → List Char
  | _, [] => []
  | inRun, c :: cs =>
    if p c then
      if inRun then collapseRunsGo p rep true cs
      else rep :: collapseRunsGo p rep true cs
    else c :: collapseRunsGo p rep false cs

/-- The `re.sub(pattern+, rep, s)` idiom: collapse each maximal run of
characters satisfying `p` into the single character `rep`. -/
def collapseRuns (p : Char → Bool) (rep : Char) (l : List Char) : List Char :=
  collapseRunsGo p rep false l

/-- `re.sub(r"\s+", " ", s)` from `remove_consecutive_spaces`
(data.py lines 544-546). -/
def remove_consecutive_spaces (s : String) : String :=
  (collapseRuns Char.isWhitespace ' ' s.data).asString

/-- `re.sub(r" +", " ", s)` from `remove_multiple_newline_limiters`
(data.py lines 548-550). -/
def remove_multiple_newline_limiters (s : String) : String :=
  (collapseRuns (fun c => c == ' ') ' ' s.data).asString

def preprocess_sentence (s : String) : String :=
  remove_multiple_newline_limiters (remove_consecutive_spaces s)

/-- Python's regex word character (`\w`), restricted to ASCII. -/
def isWordChar (c : Char) : Bool := c.isAlphanum || c == '_'

/-- `re.match(r"^\W+$", s)`: nonempty and made of non-word characters only. -/
def isPunctuationOnly (s : String) : Bool :=
  !s.data.isEmpty && s.data.all fun c => !isWordChar c

def applyPreprocess : Entry → Entry
  | .str s => .str (preprocess_sentence s)
  | .image w h => .image w h

/-- The normalization loop at the head of `preprocess_sentences`
(data.py lines 654-657): apply `preprocess_sentence` to every non-image
slot. -/
def preprocess_sentencesGo : List Entry → List Bool → List Entry × List Bool
  | e :: es, true :: bs =>
    let r := preprocess_sentencesGo es bs
    (e :: r.1, true :: r.2)
  | e :: es, false :: bs =>
    let r := preprocess_sentencesGo es bs
    (applyPreprocess e :: r.1, false :: r.2)
  | [], bs => ([], bs)
  | e :: es, [] => (e :: es, [])

def blankIfPunct : Entry → Entry
  | .str s => if isPunctuationOnly s then .str "" else .str s
  | .image w h => .image w h

/-- From `remove_punctuation_based_sentences` (data.py lines 557-567): blank
out punctuation-only text slots. -/
def remove_punctuation_based_sentences : List Entry → List Bool → List Entry × List Bool
  | e :: es, true :: bs =>
    let r := remove_punctuation_based_sentences es bs
    (e :: r.1, true :: r.2)
  | e :: es, false :: bs =>
    let r := remove_punctuation_based_sentences es bs
    (blankIfPunct e :: r.1, false :: r.2)
  | [], bs => ([], bs)
  | e :: es, [] => (e :: es, [])

/-- From `filter_out_empty_sentences` (data.py lines 644-651): keep the pairs
whose slot is not the empty string (Python's `zip` drops the tail of the
longer list here, since fresh lists are built). -/
def filter_out_empty_sentences : List Entry → List Bool → List Entry × List Bool
  | e :: es, b :: bs =>
    let r := filter_out_empty_sentences es bs
    if e = Entry.str "" then r else (e :: r.1, b :: r.2)
  | [], _ => ([], [])
  | _ :: _, [] => ([], [])

/-- From `preprocess_sentences` (data.py lines 654-661). -/
def preprocess_sentences (il : List Entry) (bl : List Bool) :
    Nat × List Entry × List Bool :=
  let p1 := preprocess_sentencesGo il bl
  let p2 := remove_punctuation_based_sentences p1.1 p1.2
  let p3 := filter_out_empty_sentences p2.1 p2.2
  (p3.1.length, p3.1, p3.2)

/-- From `substitute_with_image_tag` (data.py lines 629-641): collect the
image slots in order and replace each by the end-of-chunk-then-image marker;
returns `(images, interleaved_list, is_image_list)`. -/
def substitute_with_image_tag : List Entry → List Bool → List Entry × List Entry × List Bool
  | e :: es, b :: bs =>
    let r := substitute_with_image_tag es bs
    if b then (e :: r.1, Entry.str "<|endofchunk|><image>" :: r.2.1, b :: r.2.2)
    else (r.1, e :: r.2.1, b :: r.2.2)
  | [], bs => ([], [], bs)
  | e :: es, [] => ([], e :: es, [])

/-- `" ".join(xs)` over character lists. -/
def joinWithSpace : List String → List Char
  | [] => []
  | [s] => s.data
  | s :: rest => s.data ++ ' ' :: joinWithSpace rest

/-- `text.replace(pat, rep, 1)`: replace the first occurrence only. -/
def replaceFirstL (pat rep : List Char) : List Char → List Char
  | [] => []
  | c :: cs =>
    if pat.isPrefixOf (c :: cs) then rep ++ (c :: cs).drop pat.length
    else c :: replaceFirstL pat rep cs

/-- Recursion core of `replaceAllL`; the fuel dominates the number of
remaining characters, so it never runs out when started at the text
length. -/
def replaceAllGo (pat rep : List Char) : Nat → List Char → List Char
  | _, [] => []
  | 0, c :: cs => c :: cs
  | fuel + 1, c :: cs =>
    if pat ≠ [] ∧ pat.isPrefixOf (c :: cs) then
      rep ++ replaceAllGo pat rep fuel ((c :: cs).drop pat.length)
    else c :: replaceAllGo pat rep fuel cs

/-- `text.replace(pat, rep)`: replace every (left-to-right, non-overlapping)
occurrence of the nonempty pattern. -/
def replaceAllL (pat rep : List Char) (l : List Char) : List Char :=
  replaceAllGo pat rep l.length l

def chunkTag : List Char := "<|endofchunk|>".data

def imageTag : List Char := "<image>".data

/-- Modelled from the spec (section 6): the external tokenizer contract with
`max_length` truncation and `max_length` padding; token ids are modelled by
character code points, padding by id 0 with attention 0. -/
def tokenizeFixed (maxLen : Nat) (text : List Char) : List Nat × List Nat :=
  let toks := (text.map Char.toNat).take maxLen
  (toks ++ List.replicate (maxLen - toks.length) 0,
    List.replicate toks.length 1 ++ List.replicate (maxLen - toks.length) 0)

def entryText : Entry → String
  | .str s => s
  | .image _ _ => ""

/-- From `prepare_text_data` (data.py lines 605-618): join the slots, fix up
marker spacing, append the trailing end-of-chunk and eos markers and tokenize
to 256 positions. -/
def prepare_text_data (interleaved_list : List Entry) (eos : String) :
    List Nat × List Nat :=
  let t0 := joinWithSpace (interleaved_list.map entryText)
  let t1 := replaceFirstL chunkTag [] t0
  let t2 := replaceAllL (' ' :: chunkTag) chunkTag t1
  let t3 := replaceAllL (imageTag ++ [' ']) imageTag t2
  let t4 := replaceAllL (' ' :: imageTag) imageTag t3
  tokenizeFixed 256 (t4 ++ chunkTag ++ eos.data)

/-- From `prepare_image_data` (data.py lines 621-626): one tensor slot per
collected image (the external encoder is modelled slot-per-image),
zero-padded (`none`) up to 5 slots when fewer than 5 images were
collected. -/
def prepare_image_data (image_list : List Entry) : List (Option Entry) :=
  let images_tensor := image_list.map some
  if image_list.length < 5 then
    images_tensor ++ List.replicate (5 - image_list.length) none
  else images_tensor

/-- From `preprocess_interleaved_sample` (data.py lines 664-680): reject when
no valid image survives, then when no slot survives text filtering; otherwise
produce the image slots and the tokenized text. -/
def preprocess_interleaved_sample (il : List Entry) (bl : List Bool) (eos : String) :
    Except String (List (Option Entry) × (List Nat × List Nat)) :=
  let r1 := remove_unwanted_images il bl
  if r1.1 = 0 then .error "No images in sample"
  else
    let r2 := preprocess_sentences r1.2.1 r1.2.2
    if r2.1 = 0 then .error "No sentences in sample"
    else
      let r3 := substitute_with_image_tag r2.2.1 r2.2.2
      .ok (prepare_image_data r3.1, prepare_text_data r3.2.1 eos)

/-! ### Image-cap lemmas for the interleaved preprocessor -/

/-- The entries sitting at `is_image = true` positions of the zipped lists
(the images `substitute_with_image_tag` collects). -/
def truePairs (il : List Entry) (bl : List Bool) : List Entry :=
  ((il.zip bl).filter (fun p => p.2)).map (fun p => p.1)

theorem truePairs_nil_left (bl : List Bool) : truePairs [] bl = [] := by
  simp [truePairs]

theorem truePairs_nil_right (il : List Entry) : truePairs il [] = [] := by
  simp [truePairs]

theorem truePairs_cons_true (e : Entry) (il : List Entry) (bl : List Bool) :
    truePairs (e :: il) (true :: bl) = e :: truePairs il bl := by
  simp [truePairs]

theorem truePairs_cons_false (e : Entry) (il : List Entry) (bl : List Bool) :
    truePairs (e :: il) (false :: bl) = truePairs il bl := by
  simp [truePairs]

/-- The images collected by `substitute_with_image_tag` are exactly the
true-flagged entries. -/
theorem substitute_images_eq (il : List Entry) :
    ∀ bl : List Bool, (substitute_with_image_tag il bl).1 = truePairs il bl := by
  induction il with
  | nil =>
    intro bl
    rw [substitute_with_image_tag, truePairs_nil_left]
  | cons e es ih =>
    intro bl
    match bl with
    | [] =>
      rw [substitute_with_image_tag, truePairs_nil_right]
    | true :: bs =>
      rw [substitute_with_image_tag, truePairs_cons_true]
      simpa using ih bs
    | false :: bs =>
      rw [substitute_with_image_tag, truePairs_cons_false]
      simpa using ih bs

/-- At most `5 - n` images survive with the counter starting at `n`: the cap
keeps only the valid images numbered `n+1 … 5`. -/
theorem removeUnwanted_cap (il : List Entry) :
    ∀ (bl : List Bool) (n : Nat),
      (truePairs (removeUnwantedGo n il bl).2.1 (removeUnwantedGo n il bl).2.2).length
        ≤ 5 - n := by
  induction il with
  | nil =>
    intro bl n
    rw [removeUnwantedGo, truePairs_nil_left]
    simp
  | cons e es ih =>
    intro bl n
    match bl with
    | [] =>
      rw [removeUnwantedGo, truePairs_nil_right]
      simp
    | true :: bs =>
      rw [removeUnwantedGo]
      by_cases hu : is_unwanted_image (parse_image e) = true
      · simp only [hu, if_true, Bool.true_or, if_pos rfl]
        rw [truePairs_cons_false]
        exact ih bs n
      · simp only [Bool.not_eq_true] at hu
        simp only [hu, Bool.false_or, if_neg Bool.false_ne_true]
        by_cases hcap : n + 1 > 5
        · rw [if_pos (by simpa using hcap), truePairs_cons_false]
          have := ih bs (n + 1)
          omega
        · rw [if_neg (by simpa using hcap), truePairs_cons_true]
          simp only [List.length_cons]
          have := ih bs (n + 1)
          omega
    | false :: bs =>
      rw [removeUnwantedGo, truePairs_cons_false]
      exact ih bs n

/-- Every surviving true-flagged entry is a valid (not-unwanted) image. -/
theorem removeUnwanted_truePairs_valid (il : List Entry) :
    ∀ (bl : List Bool) (n : Nat) (e : Entry),
      e ∈ truePairs (removeUnwantedGo n il bl).2.1 (removeUnwantedGo n il bl).2.2 →
      is_unwanted_image e = false := by
  induction il with
  | nil =>
    intro bl n e he
    rw [removeUnwantedGo, truePairs_nil_left] at he
    simp at he
  | cons a es ih =>
    intro bl n e he
    match bl with
    | [] =>
      rw [removeUnwantedGo, truePairs_nil_right] at he
      simp at he
    | true :: bs =>
      rw [removeUnwantedGo] at he
      by_cases hu : is_unwanted_image (parse_image a) = true
      · simp only [hu, if_true, Bool.true_or, if_pos rfl] at he
        rw [truePairs_cons_false] at he
        exact ih bs n e he
      · simp only [Bool.not_eq_true] at hu
        simp only [hu, Bool.false_or, if_neg Bool.false_ne_true] at he
        by_cases hcap : n + 1 > 5
        · rw [if_pos (by simpa using hcap), truePairs_cons_false] at he
          exact ih bs (n + 1) e he
        · rw [if_neg (by simpa using hcap), truePairs_cons_true] at he
          rcases List.mem_cons.mp he with h1 | h2
          · subst h1; exact hu
          · exact ih bs (n + 1) e h2
    | false :: bs =>
      rw [removeUnwantedGo, truePairs_cons_false] at he
      exact ih bs n e he

/-- Lower bound: at least `min totalValid 5 - min n 5` images survive, so a
nonzero valid count leaves at least one surviving image. -/
theorem removeUnwanted_min_le (il : List Entry) :
    ∀ (bl : List Bool) (n : Nat),
      min (removeUnwantedGo n il bl).1 5
        ≤ min n 5 +
          (truePairs (removeUnwantedGo n il bl).2.1
            (removeUnwantedGo n il bl).2.2).length := by
  induction il with
  | nil =>
    intro bl n
    rw [removeUnwantedGo, truePairs_nil_left]
    simp
  | cons e es ih =>
    intro bl n
    match bl with
    | [] =>
      rw [removeUnwantedGo, truePairs_nil_right]
      simp
    | true :: bs =>
      rw [removeUnwantedGo]
      by_cases hu : is_unwanted_image (parse_image e) = true
      · simp only [hu, if_true, Bool.true_or, if_pos rfl]
        rw [truePairs_cons_false]
        exact ih bs n
      · simp only [Bool.not_eq_true] at hu
        simp only [hu, Bool.false_or, if_neg Bool.false_ne_true]
        by_cases hcap : n + 1 > 5
        · rw [if_pos (by simpa using hcap), truePairs_cons_false]
          have := ih bs (n + 1)
          omega
        · rw [if_neg (by simpa using hcap), truePairs_cons_true]
          simp only [List.length_cons]
          have := ih bs (n + 1)
          omega
    | false :: bs =>
      rw [removeUnwantedGo, truePairs_cons_false]
      exact ih bs n

/-- Text normalization does not touch true-flagged (image) slots. -/
theorem preprocess_sentencesGo_truePairs (il : List Entry) :
    ∀ bl : List Bool,
      truePairs (preprocess_sentencesGo il bl).1 (preprocess_sentencesGo il bl).2
        = truePairs il bl := by
  induction il with
  | nil => intro bl; rw [preprocess_sentencesGo]
  | cons e es ih =>
    intro bl
    match bl with
    | [] => rw [preprocess_sentencesGo]
    | true :: bs =>
      rw [preprocess_sentencesGo]
      simp only
      rw [truePairs_cons_true, truePairs_cons_true, ih bs]
    | false :: bs =>
      rw [preprocess_sentencesGo]
      simp only
      rw [truePairs_cons_false, truePairs_cons_false]
      exact ih bs

/-- Punctuation blanking does not touch true-flagged (image) slots. -/
theorem remove_punct_truePairs (il : List Entry) :
    ∀ bl : List Bool,
      truePairs (remove_punctuation_based_sentences il bl).1
          (remove_punctuation_based_sentences il bl).2
        = truePairs il bl := by
  induction il with
  | nil => intro bl; rw [remove_punctuation_based_sentences]
  | cons e es ih =>
    intro bl
    match bl with
    | [] => rw [remove_punctuation_based_sentences]
    | true :: bs =>
      rw [remove_punctuation_based_sentences]
      simp only
      rw [truePairs_cons_true, truePairs_cons_true, ih bs]
    | false :: bs =>
      rw [remove_punctuation_based_sentences]
      simp only
      rw [truePairs_cons_false, truePairs_cons_false]
      exact ih bs

/-- Dropping empty-string slots preserves the true-flagged entries as long as
none of them is the empty string. -/
theorem filter_empty_truePairs (il : List Entry) :
    ∀ bl : List Bool,
      (∀ e ∈ truePairs il bl, e ≠ Entry.str "") →
      truePairs (filter_out_empty_sentences il bl).1
          (filter_out_empty_sentences il bl).2
        = truePairs il bl := by
  induction il with
  | nil =>
    intro bl hne
    rw [filter_out_empty_sentences, truePairs_nil_left, truePairs_nil_left]
  | cons e es ih =>
    intro bl hne
    match bl with
    | [] =>
      rw [filter_out_empty_sentences]
      simp [truePairs]
    | b :: bs =>
      rw [filter_out_empty_sentences]
      by_cases hemp : e = Entry.str ""
      · rw [if_pos hemp]
        have hb : b = false := by
          cases b
          · rfl
          · exfalso
            refine hne e ?_ hemp
            rw [truePairs_cons_true]
            simp
        subst hb
        rw [truePairs_cons_false]
        refine ih bs ?_
        intro x hx
        refine hne x ?_
        rw [truePairs_cons_false]
        exact hx
      · rw [if_neg hemp]
        cases b
        · rw [truePairs_cons_false, truePairs_cons_false]
          refine ih bs ?_
          intro x hx
          refine hne x ?_
          rw [truePairs_cons_false]
          exact hx
        · rw [truePairs_cons_true, truePairs_cons_true]
          rw [ih bs]
          intro x hx
          refine hne x ?_
          rw [truePairs_cons_true]
          simp [hx]

/-- `prepare_image_data` in closed form for at most five images. -/
theorem prepare_image_data_eq (imgs : List Entry) (h : imgs.length ≤ 5) :
    prepare_image_data imgs
      = imgs.map some ++ List.replicate (5 - imgs.length) none := by
  unfold prepare_image_data
  by_cases hlt : imgs.length < 5
  · rw [if_pos hlt]
  · rw [if_neg hlt]
    have h5 : imgs.length = 5 := by omega
    rw [h5]
    simp

/-- The whole text phase leaves the collected image entries unchanged, as
long as none of them is the empty string. -/
theorem preprocess_sentences_truePairs (il : List Entry) (bl : List Bool)
    (hne : ∀ e ∈ truePairs il bl, e ≠ Entry.str "") :
    truePairs (preprocess_sentences il bl).2.1 (preprocess_sentences il bl).2.2
      = truePairs il bl := by
  have h1 := preprocess_sentencesGo_truePairs il bl
  have h2 := remove_punct_truePairs (preprocess_sentencesGo il bl).1
    (preprocess_sentencesGo il bl).2
  have h12 := h2.trans h1
  have h3 := filter_empty_truePairs
    (remove_punctuation_based_sentences (preprocess_sentencesGo il bl).1
      (preprocess_sentencesGo il bl).2).1
    (remove_punctuation_based_sentences (preprocess_sentencesGo il bl).1
      (preprocess_sentencesGo il bl).2).2
    (by rw [h12]; exact hne)
  exact h3.trans h12

/-- Every accepted interleaved document yields between 1 and 5 collected
images and an image tensor of exactly 5 slots, `none`-padded beyond the
collected images. -/
theorem preprocess_interleaved_ok_slots (il : List Entry) (bl : List Bool) (eos : String)
    (out : List (Option Entry) × (List Nat × List Nat))
    (h : preprocess_interleaved_sample il bl eos = .ok out) :
    ∃ imgs : List Entry, 1 ≤ imgs.length ∧ imgs.length ≤ 5 ∧
      out.1 = imgs.map some ++ List.replicate (5 - imgs.length) none ∧
      out.1.length = 5 := by
  simp only [preprocess_interleaved_sample, remove_unwanted_images] at h
  by_cases h1 : (removeUnwantedGo 0 il bl).1 = 0
  · rw [if_pos h1] at h
    exact absurd h (by simp)
  · rw [if_neg h1] at h
    by_cases h2 : (preprocess_sentences (removeUnwantedGo 0 il bl).2.1
        (removeUnwantedGo 0 il bl).2.2).1 = 0
    · rw [if_pos h2] at h
      exact absurd h (by simp)
    · rw [if_neg h2] at h
      have hout := Except.ok.inj h
      subst hout
      have hvalid : ∀ e ∈ truePairs (removeUnwantedGo 0 il bl).2.1
          (removeUnwantedGo 0 il bl).2.2, is_unwanted_image e = false :=
        fun e he => removeUnwanted_truePairs_valid il bl 0 e he
      have hne : ∀ e ∈ truePairs (removeUnwantedGo 0 il bl).2.1
          (removeUnwantedGo 0 il bl).2.2, e ≠ Entry.str "" := by
        intro e he heq
        have hv := hvalid e he
        rw [heq] at hv
        simp [is_unwanted_image] at hv
      have hpres := preprocess_sentences_truePairs _ _ hne
      have himgs := substitute_images_eq
        (preprocess_sentences (removeUnwantedGo 0 il bl).2.1
          (removeUnwantedGo 0 il bl).2.2).2.1
        (preprocess_sentences (removeUnwantedGo 0 il bl).2.1
          (removeUnwantedGo 0 il bl).2.2).2.2
      have hlen_eq : (substitute_with_image_tag
          (preprocess_sentences (removeUnwantedGo 0 il bl).2.1
            (removeUnwantedGo 0 il bl).2.2).2.1
          (preprocess_sentences (removeUnwantedGo 0 il bl).2.1
            (removeUnwantedGo 0 il bl).2.2).2.2).1.length
          = (truePairs (removeUnwantedGo 0 il bl).2.1
              (removeUnwantedGo 0 il bl).2.2).length := by
        rw [himgs, hpres]
      have hcap := removeUnwanted_cap il bl 0
      have hmin := removeUnwanted_min_le il bl 0
      have hb2 : (substitute_with_image_tag
          (preprocess_sentences (removeUnwantedGo 0 il bl).2.1
            (removeUnwantedGo 0 il bl).2.2).2.1
          (preprocess_sentences (removeUnwantedGo 0 il bl).2.1
            (removeUnwantedGo 0 il bl).2.2).2.2).1.length ≤ 5 := by
        rw [hlen_eq]
        omega
      have hb1 : 1 ≤ (substitute_with_image_tag
          (preprocess_sentences (removeUnwantedGo 0 il bl).2.1
            (removeUnwantedGo 0 il bl).2.2).2.1
          (preprocess_sentences (removeUnwantedGo 0 il bl).2.1
            (removeUnwantedGo 0 il bl).2.2).2.2).1.length := by
        rw [hlen_eq]
        omega
      refine ⟨(substitute_with_image_tag
          (preprocess_sentences (removeUnwantedGo 0 il bl).2.1
            (removeUnwantedGo 0 il bl).2.2).2.1
          (preprocess_sentences (removeUnwantedGo 0 il bl).2.1
            (removeUnwantedGo 0 il bl).2.2).2.2).1, hb1, hb2, ?_, ?_⟩
      · exact prepare_image_data_eq _ hb2
      · show (prepare_image_data _).length = 5
        rw [prepare_image_data_eq _ hb2]
        simp only [List.length_append, List.length_map, List.length_replicate]
        omega

/-- The claim's 7-candidate-image document: one text slot and seven images,
all larger than 10x10, with distinct sizes `11 … 17`. -/
def interleavedDoc7 : List Entry :=
  [.str "hello world", .image 11 11, .image 12 12, .image 13 13, .image 14 14,
   .image 15 15, .image 16 16, .image 17 17]

def interleavedFlags7 : List Bool := [false, true, true, true, true, true, true, true]

/-- A document whose two images are both icon-sized (a dimension ≤ 10). -/
def interleavedDocIcons : List Entry := [.str "hi", .image 5 5, .image 10 200]

def interleavedFlagsIcons : List Bool := [false, true, true]

/-- C6: every accepted interleaved document keeps at most 5 decoded images
and the returned image tensor has exactly 5 slots, zero-padded beyond the
collected images; the concrete document with 7 valid candidate images keeps
exactly the first 5 and excludes 2; a document whose images are all filtered
as icons is rejected with an error, not a crash. -/
theorem interleaved_image_cap :
    (∀ (il : List Entry) (bl : List Bool) (eos : String)
        (out : List (Option Entry) × (List Nat × List Nat)),
      preprocess_interleaved_sample il bl eos = .ok out →
      ∃ imgs : List Entry, 1 ≤ imgs.length ∧ imgs.length ≤ 5 ∧
        out.1 = imgs.map some ++ List.replicate (5 - imgs.length) none ∧
        out.1.length = 5) ∧
    (∃ t, preprocess_interleaved_sample interleavedDoc7 interleavedFlags7 "E"
      = .ok ([some (Entry.image 11 11), some (Entry.image 12 12),
              some (Entry.image 13 13), some (Entry.image 14 14),
              some (Entry.image 15 15)], t)) ∧
    preprocess_interleaved_sample interleavedDocIcons interleavedFlagsIcons "E"
      = .error "No images in sample" :=
  ⟨preprocess_interleaved_ok_slots, ⟨_, rfl⟩, rfl⟩

theorem interleaved_image_cap_witness :
    ∃ (out : List (Option Entry) × (List Nat × List Nat)),
      preprocess_interleaved_sample interleavedDoc7 interleavedFlags7 "E" = .ok out ∧
      ∃ imgs : List Entry, 1 ≤ imgs.length ∧ imgs.length ≤ 5 ∧
        out.1 = imgs.map some ++ List.replicate (5 - imgs.length) none ∧
        out.1.length = 5 := by
  obtain ⟨t, ht⟩ := interleaved_image_cap.2.1
  exact ⟨_, ht, interleaved_image_cap.1 interleavedDoc7 interleavedFlags7 "E" _ ht⟩


/-! ## Span-masking text preprocessor (`preprocess_pile`, data.py lines 273-347)

The sentence splitter (`nltk.sent_tokenize`) and the two tokenizers are
external collaborators: the splitter is a function parameter, the tokenizers
follow the fixed-length contract of `tokenizeFixed`.  `torch.rand(n) <= 0.7`
is modelled by `n` draws below 1000 compared against 700, and
`torch.randperm` over the marked indices by the random drain `drainBuf`. -/

/-- The elementwise Bernoulli(0.7) marking `indices_replaced`
(data.py lines 290-291). -/
def computeMarks : Nat → Rng → List Bool × Rng
  | 0, r => ([], r)
  | n + 1, r =>
    let p := randBelow r 1000
    let rest := computeMarks n p.2
    ((decide (p.1 < 700)) :: rest.1, rest.2)

/-- `torch.nonzero(indices_replaced)`: the marked positions, ascending. -/
def trueIndicesFrom : Nat → List Bool → List Nat
  | _, [] => []
  | i, b :: bs =>
    if b then i :: trueIndicesFrom (i + 1) bs else trueIndicesFrom (i + 1) bs

def trueIndices (marks : List Bool) : List Nat := trueIndicesFrom 0 marks

/-- `indices_replaced[positions] = False`. -/
def unsetAt (marks : List Bool) (ps : List Nat) : List Bool :=
  ps.foldl (fun m p => m.set p false) marks

/-- From data.py lines 296-302: cap the marked count at 10 by un-marking
`count - 10` randomly-chosen marked positions. -/
def capMarks (marks : List Bool) (r : Rng) : List Bool :=
  let cnt := marks.count true
  if cnt > 10 then
    unsetAt marks ((drainBuf (trueIndices marks) r).take (cnt - 10))
  else marks

/-- Python `str.strip()`. -/
def stripStr (s : String) : String :=
  (((s.data.dropWhile Char.isWhitespace).reverse.dropWhile
    Char.isWhitespace).reverse).asString

/-- `" ".join` over character lists. -/
def joinWithSpaceL : List (List Char) → List Char
  | [] => []
  | [s] => s
  | s :: t :: rest => s ++ ' ' :: joinWithSpaceL (t :: rest)

/-- The tensors built for an accepted document (data.py lines 304-347): the
stripped chosen sentences paired with their 24-token rows zero-padded to
exactly 10 rows, and the tagged full-document text tokenized to 256
positions. -/
def pileTensors (sentences : List String) (marks : List Bool) (eos : String) :
    (List (List Nat) × List (List Nat)) × (List Nat × List Nat) :=
  let chosen := ((sentences.zip marks).filter (fun p => p.2)).map
    (fun p => stripStr p.1)
  let tagged := (sentences.zip marks).map
    (fun p => if p.2 then chunkTag ++ imageTag ++ p.1.data else p.1.data)
  let t0 := joinWithSpaceL tagged
  let t1 := replaceFirstL chunkTag [] t0
  let t2 := replaceAllL (' ' :: chunkTag) chunkTag t1
  let t3 := replaceAllL (imageTag ++ [' ']) imageTag t2
  let t4 := replaceAllL (' ' :: imageTag) imageTag t3
  let text_tensor := tokenizeFixed 256 (t4 ++ chunkTag ++ eos.data)
  let rows := chosen.map (fun s => tokenizeFixed 24 s.data)
  let ids := rows.map (fun q => q.1)
  let msk := rows.map (fun q => q.2)
  let padRows := List.replicate (10 - chosen.length) (List.replicate 24 (0 : Nat))
  let clipIds := if chosen.length < 10 then ids ++ padRows else ids
  let clipMask := if chosen.length < 10 then msk ++ padRows else msk
  ((clipIds, clipMask), text_tensor)

/-- From `preprocess_pile` (data.py lines 273-347): normalize whitespace,
split into sentences, drop punctuation-only sentences (reject when none
remain), mark sentences for replacement (reject when none marked), cap the
marks at 10 and build the output tensors. -/
def preprocess_pile (sentTokenize : String → List String) (eos : String)
    (sample : String) (r : Rng) :
    Except String ((List (List Nat) × List (List Nat)) × (List Nat × List Nat)) :=
  let s1 := remove_consecutive_spaces sample
  let s2 := remove_multiple_newline_limiters s1
  let sentences := (sentTokenize s2).filter (fun s => !isPunctuationOnly s)
  if sentences.length = 0 then .error "No sentences in sample"
  else
    let m0 := computeMarks sentences.length r
    if m0.1.count true = 0 then .error "No sentences to mask"
    else .ok (pileTensors sentences (capMarks m0.1 m0.2) eos)

theorem computeMarks_length (n : Nat) (r : Rng) : (computeMarks n r).1.length = n := by
  induction n generalizing r with
  | zero => rfl
  | succ n ih => simp [computeMarks, ih]

theorem getD_set_ne (l : List Bool) (p q : Nat) (x d : Bool) (h : q ≠ p) :
    (l.set p x).getD q d = l.getD q d := by
  induction l generalizing p q with
  | nil => simp [List.set]
  | cons a as ih =>
    cases p with
    | zero =>
      cases q with
      | zero => exact absurd rfl h
      | succ q => rfl
    | succ p =>
      cases q with
      | zero => rfl
      | succ q => exact ih p q (fun hc => h (by rw [hc]))

theorem count_true_set_false (l : List Bool) :
    ∀ p : Nat, p < l.length → l.getD p false = true →
      (l.set p false).count true + 1 = l.count true := by
  induction l with
  | nil => intro p hp _; simp at hp
  | cons a as ih =>
    intro p hp ht
    cases p with
    | zero =>
      have ha : a = true := ht
      subst ha
      simp [List.count_cons]
    | succ p =>
      have hp' : p < as.length := by simpa using Nat.lt_of_succ_lt_succ hp
      have hrec := ih p hp' ht
      cases a <;> simp only [List.set, List.count_cons] <;> simp <;> omega

theorem unsetAt_length (ps : List Nat) :
    ∀ marks : List Bool, (unsetAt marks ps).length = marks.length := by
  induction ps with
  | nil => intro marks; rfl
  | cons p ps ih =>
    intro marks
    have hstep : unsetAt marks (p :: ps) = unsetAt (marks.set p false) ps := rfl
    rw [hstep, ih, List.length_set]

theorem unsetAt_count (ps : List Nat) :
    ∀ marks : List Bool, ps.Nodup →
      (∀ p ∈ ps, p < marks.length ∧ marks.getD p false = true) →
      (unsetAt marks ps).count true + ps.length = marks.count true := by
  induction ps with
  | nil => intro marks _ _; simp [unsetAt]
  | cons p ps ih =>
    intro marks hnd hall
    have hp := hall p (List.mem_cons_self p ps)
    have hstep : unsetAt marks (p :: ps) = unsetAt (marks.set p false) ps := rfl
    rw [hstep]
    have hnd' : ps.Nodup := (List.nodup_cons.mp hnd).2
    have hnotmem : p ∉ ps := (List.nodup_cons.mp hnd).1
    have hall' : ∀ q ∈ ps, q < (marks.set p false).length ∧
        (marks.set p false).getD q false = true := by
      intro q hq
      have hq2 := hall q (List.mem_cons_of_mem p hq)
      refine ⟨by simpa [List.length_set] using hq2.1, ?_⟩
      rw [getD_set_ne marks p q false false (fun hc => hnotmem (hc ▸ hq))]
      exact hq2.2
    have hrec := ih (marks.set p false) hnd' hall'
    have hcnt := count_true_set_false marks p hp.1 hp.2
    simp only [List.length_cons]
    omega

theorem capMarks_length (marks : List Bool) (r : Rng) :
    (capMarks marks r).length = marks.length := by
  unfold capMarks
  by_cases hgt : marks.count true > 10
  · rw [if_pos hgt, unsetAt_length]
  · rw [if_neg hgt]

theorem trueIndicesFrom_mem (bs : List Bool) :
    ∀ (i p : Nat), p ∈ trueIndicesFrom i bs →
      i ≤ p ∧ p - i < bs.length ∧ bs.getD (p - i) false = true := by
  induction bs with
  | nil => intro i p hp; simp [trueIndicesFrom] at hp
  | cons b bs ih =>
    intro i p hp
    rw [trueIndicesFrom] at hp
    by_cases hb : b = true
    · rw [if_pos hb] at hp
      rcases List.mem_cons.mp hp with h1 | h2
      · subst h1
        refine ⟨Nat.le.refl, by simp, ?_⟩
        have hz : p - p = 0 := Nat.sub_self p
        rw [hz]
        exact hb
      · have hrec := ih (i + 1) p h2
        refine ⟨by omega, by simp only [List.length_cons]; omega, ?_⟩
        have hpi : p - i = (p - (i + 1)) + 1 := by omega
        rw [hpi]
        exact hrec.2.2
    · rw [if_neg hb] at hp
      have hrec := ih (i + 1) p hp
      refine ⟨by omega, by simp only [List.length_cons]; omega, ?_⟩
      have hpi : p - i = (p - (i + 1)) + 1 := by omega
      rw [hpi]
      exact hrec.2.2

theorem trueIndicesFrom_nodup (bs : List Bool) :
    ∀ i : Nat, (trueIndicesFrom i bs).Nodup := by
  induction bs with
  | nil => intro i; simp [trueIndicesFrom]
  | cons b bs ih =>
    intro i
    rw [trueIndicesFrom]
    by_cases hb : b = true
    · rw [if_pos hb]
      refine List.nodup_cons.mpr ⟨?_, ih (i + 1)⟩
      intro hmem
      have := (trueIndicesFrom_mem bs (i + 1) i hmem).1
      omega
    · rw [if_neg hb]
      exact ih (i + 1)

theorem trueIndicesFrom_length (bs : List Bool) :
    ∀ i : Nat, (trueIndicesFrom i bs).length = bs.count true := by
  induction bs with
  | nil => intro i; simp [trueIndicesFrom]
  | cons b bs ih =>
    intro i
    rw [trueIndicesFrom]
    cases b <;> simp [List.count_cons, ih (i + 1)]

/-- The capping step leaves between 1 and 10 marked positions whenever at
least one position was marked. -/
theorem capMarks_count_bounds (marks : List Bool) (r : Rng)
    (h1 : 1 ≤ marks.count true) :
    1 ≤ (capMarks marks r).count true ∧ (capMarks marks r).count true ≤ 10 := by
  unfold capMarks
  by_cases hgt : marks.count true > 10
  · rw [if_pos hgt]
    have hperm := drainBuf_perm (trueIndices marks) r
    have hnd : (drainBuf (trueIndices marks) r).Nodup :=
      hperm.nodup_iff.mpr (trueIndicesFrom_nodup marks 0)
    have hndtake : ((drainBuf (trueIndices marks) r).take (marks.count true - 10)).Nodup :=
      List.Nodup.sublist (List.take_sublist _ _) hnd
    have hall : ∀ p ∈ (drainBuf (trueIndices marks) r).take (marks.count true - 10),
        p < marks.length ∧ marks.getD p false = true := by
      intro p hp
      have hp2 : p ∈ trueIndices marks := hperm.mem_iff.mp (List.mem_of_mem_take hp)
      have := trueIndicesFrom_mem marks 0 p hp2
      simpa using this
    have hlen : ((drainBuf (trueIndices marks) r).take (marks.count true - 10)).length
        = marks.count true - 10 := by
      rw [List.length_take]
      have hl := hperm.length_eq
      have hl2 : (trueIndices marks).length = marks.count true :=
        trueIndicesFrom_length marks 0
      omega
    have hcnt := unsetAt_count _ marks hndtake hall
    rw [hlen] at hcnt
    omega
  · rw [if_neg hgt]
    omega

theorem zip_filter_true_length (ss : List String) :
    ∀ ms : List Bool, ss.length = ms.length →
      (((ss.zip ms).filter (fun p => p.2)).map (fun p => stripStr p.1)).length
        = ms.count true := by
  induction ss with
  | nil =>
    intro ms h
    match ms with
    | [] => rfl
    | b :: bs => simp at h
  | cons s ss ih =>
    intro ms h
    match ms with
    | [] => simp at h
    | b :: bs =>
      have hrec := ih bs (by simpa using h)
      cases b <;> simp [List.count_cons, hrec]

theorem tokenizeFixed_length (m : Nat) (t : List Char) :
    (tokenizeFixed m t).1.length = m ∧ (tokenizeFixed m t).2.length = m := by
  unfold tokenizeFixed
  simp only [List.length_append, List.length_replicate, List.length_take, List.length_map]
  omega

/-- Shape of a 24-token row block zero-padded to 10 rows. -/
theorem clipPad_shapes (rows : List (List Nat)) (k : Nat)
    (hrk : rows.length = k) (hk10 : k ≤ 10)
    (hrow : ∀ row ∈ rows, row.length = 24) :
    (if k < 10 then rows ++ List.replicate (10 - k) (List.replicate 24 0)
        else rows).length = 10 ∧
    (∀ row ∈ (if k < 10 then rows ++ List.replicate (10 - k) (List.replicate 24 0)
        else rows), row.length = 24) ∧
    (if k < 10 then rows ++ List.replicate (10 - k) (List.replicate 24 0)
        else rows).drop k = List.replicate (10 - k) (List.replicate 24 0) := by
  by_cases hlt : k < 10
  · rw [if_pos hlt]
    refine ⟨?_, ?_, ?_⟩
    · simp only [List.length_append, List.length_replicate]
      omega
    · intro row hrm
      rcases List.mem_append.mp hrm with h1 | h2
      · exact hrow row h1
      · rw [List.eq_of_mem_replicate h2]
        simp
    · rw [← hrk, List.drop_left]
  · rw [if_neg hlt]
    have hk : k = 10 := by omega
    refine ⟨by omega, hrow, ?_⟩
    rw [← hrk, List.drop_length]
    rw [hrk, hk]
    simp

/-- Shapes of the masked-sentence tensors of an accepted pile document:
exactly 10 rows of 24 tokens, zero rows beyond the replaced-sentence
count. -/
theorem pileTensors_shapes (sentences : List String) (marks : List Bool) (eos : String)
    (hlen : marks.length = sentences.length)
    (h1 : 1 ≤ marks.count true) (h10 : marks.count true ≤ 10) :
    ∃ k, 1 ≤ k ∧ k ≤ 10 ∧
      (pileTensors sentences marks eos).1.1.length = 10 ∧
      (pileTensors sentences marks eos).1.2.length = 10 ∧
      (∀ row ∈ (pileTensors sentences marks eos).1.1, row.length = 24) ∧
      (∀ row ∈ (pileTensors sentences marks eos).1.2, row.length = 24) ∧
      (pileTensors sentences marks eos).1.1.drop k
        = List.replicate (10 - k) (List.replicate 24 0) ∧
      (pileTensors sentences marks eos).1.2.drop k
        = List.replicate (10 - k) (List.replicate 24 0) := by
  have hk : (((sentences.zip marks).filter (fun p => p.2)).map
      (fun p => stripStr p.1)).length = marks.count true :=
    zip_filter_true_length sentences marks hlen.symm
  have hids : (pileTensors sentences marks eos).1.1
      = (if (((sentences.zip marks).filter (fun p => p.2)).map
            (fun p => stripStr p.1)).length < 10 then
          ((((sentences.zip marks).filter (fun p => p.2)).map
            (fun p => stripStr p.1)).map (fun s => tokenizeFixed 24 s.data)).map
              (fun q => q.1)
            ++ List.replicate (10 - (((sentences.zip marks).filter (fun p => p.2)).map
                (fun p => stripStr p.1)).length) (List.replicate 24 0)
        else ((((sentences.zip marks).filter (fun p => p.2)).map
            (fun p => stripStr p.1)).map (fun s => tokenizeFixed 24 s.data)).map
              (fun q => q.1)) := rfl
  have hmsk : (pileTensors sentences marks eos).1.2
      = (if (((sentences.zip marks).filter (fun p => p.2)).map
            (fun p => stripStr p.1)).length < 10 then
          ((((sentences.zip marks).filter (fun p => p.2)).map
            (fun p => stripStr p.1)).map (fun s => tokenizeFixed 24 s.data)).map
              (fun q => q.2)
            ++ List.replicate (10 - (((sentences.zip marks).filter (fun p => p.2)).map
                (fun p => stripStr p.1)).length) (List.replicate 24 0)
        else ((((sentences.zip marks).filter (fun p => p.2)).map
            (fun p => stripStr p.1)).map (fun s => tokenizeFixed 24 s.data)).map
              (fun q => q.2)) := rfl
  have hrows1 : ∀ row ∈ ((((sentences.zip marks).filter (fun p => p.2)).map
      (fun p => stripStr p.1)).map (fun s => tokenizeFixed 24 s.data)).map
        (fun q => q.1), row.length = 24 := by
    intro row hrm
    rcases List.mem_map.mp hrm with ⟨q, hq, hqrow⟩
    rcases List.mem_map.mp hq with ⟨s, _, hsq⟩
    rw [← hqrow, ← hsq]
    exact (tokenizeFixed_length 24 s.data).1
  have hrows2 : ∀ row ∈ ((((sentences.zip marks).filter (fun p => p.2)).map
      (fun p => stripStr p.1)).map (fun s => tokenizeFixed 24 s.data)).map
        (fun q => q.2), row.length = 24 := by
    intro row hrm
    rcases List.mem_map.mp hrm with ⟨q, hq, hqrow⟩
    rcases List.mem_map.mp hq with ⟨s, _, hsq⟩
    rw [← hqrow, ← hsq]
    exact (tokenizeFixed_length 24 s.data).2
  have hlen1 : (((((sentences.zip marks).filter (fun p => p.2)).map
      (fun p => stripStr p.1)).map (fun s => tokenizeFixed 24 s.data)).map
        (fun q => q.1)).length
      = (((sentences.zip marks).filter (fun p => p.2)).map
          (fun p => stripStr p.1)).length := by
    simp
  have hlen2 : (((((sentences.zip marks).filter (fun p => p.2)).map
      (fun p => stripStr p.1)).map (fun s => tokenizeFixed 24 s.data)).map
        (fun q => q.2)).length
      = (((sentences.zip marks).filter (fun p => p.2)).map
          (fun p => stripStr p.1)).length := by
    simp
  have hc1 := clipPad_shapes _ _ hlen1 (by omega) hrows1
  have hc2 := clipPad_shapes _ _ hlen2 (by omega) hrows2
  refine ⟨(((sentences.zip marks).filter (fun p => p.2)).map
      (fun p => stripStr p.1)).length, by omega, by omega, ?_, ?_, ?_, ?_, ?_, ?_⟩
  · rw [hids]; exact hc1.1
  · rw [hmsk]; exact hc2.1
  · rw [hids]; exact hc1.2.1
  · rw [hmsk]; exact hc2.2.1
  · rw [hids]; exact hc1.2.2
  · rw [hmsk]; exact hc2.2.2

/-- C7: every document accepted by the span-masking preprocessor has between
1 and 10 replaced sentences (the capping step un-marks the excess at random),
and the masked-sentence `input_ids` / `attention_mask` tensors have shape
exactly `[10, 24]`, zero-padded beyond the replaced-sentence count. -/
theorem pile_mask_shapes :
    (∀ (st : String → List String) (eos sample : String) (r : Rng)
        (out : (List (List Nat) × List (List Nat)) × (List Nat × List Nat)),
      preprocess_pile st eos sample r = .ok out →
      ∃ k, 1 ≤ k ∧ k ≤ 10 ∧
        out.1.1.length = 10 ∧ out.1.2.length = 10 ∧
        (∀ row ∈ out.1.1, row.length = 24) ∧ (∀ row ∈ out.1.2, row.length = 24) ∧
        out.1.1.drop k = List.replicate (10 - k) (List.replicate 24 0) ∧
        out.1.2.drop k = List.replicate (10 - k) (List.replicate 24 0)) ∧
    (∀ (marks : List Bool) (r : Rng), 1 ≤ marks.count true →
      1 ≤ (capMarks marks r).count true ∧ (capMarks marks r).count true ≤ 10) := by
  refine ⟨?_, fun marks r h => capMarks_count_bounds marks r h⟩
  intro st eos sample r out h
  simp only [preprocess_pile] at h
  split at h
  · exact absurd h (by simp)
  · split at h
    · exact absurd h (by simp)
    · rename_i hs hm
      have hout := Except.ok.inj h
      subst hout
      refine pileTensors_shapes _ _ eos ?_ ?_ ?_
      · rw [capMarks_length, computeMarks_length]
      · exact (capMarks_count_bounds _ _ (Nat.one_le_iff_ne_zero.mpr hm)).1
      · exact (capMarks_count_bounds _ _ (Nat.one_le_iff_ne_zero.mpr hm)).2

theorem pile_mask_shapes_witness :
    ∃ out, preprocess_pile (fun s => [s]) "E" "Hello world" (mkRng 0) = .ok out ∧
      ∃ k, 1 ≤ k ∧ k ≤ 10 ∧
        out.1.1.length = 10 ∧ out.1.2.length = 10 ∧
        (∀ row ∈ out.1.1, row.length = 24) ∧ (∀ row ∈ out.1.2, row.length = 24) ∧
        out.1.1.drop k = List.replicate (10 - k) (List.replicate 24 0) ∧
        out.1.2.drop k = List.replicate (10 - k) (List.replicate 24 0) := by
  have hok : (preprocess_pile (fun s => [s]) "E" "Hello world" (mkRng 0)).isOk = true := by
    decide
  cases hev : preprocess_pile (fun s => [s]) "E" "Hello world" (mkRng 0) with
  | error e =>
    rw [hev] at hok
    exact Bool.noConfusion hok
  | ok out => exact ⟨out, rfl, pile_mask_shapes.1 _ _ _ _ _ hev⟩

/-! ## Error propagation (C8) -/

theorem except_error_iff_not_isOk {β : Type} (e : Except String β) :
    (∃ msg, e = .error msg) ↔ e.isOk = false := by
  cases e with
  | error msg => simp [Except.isOk, Except.toBool]
  | ok v => simp [Except.isOk, Except.toBool]

/-- The interleaved preprocessor rejects exactly when no valid image or no
slot survives filtering. -/
theorem preprocess_interleaved_error_iff (il : List Entry) (bl : List Bool) (eos : String) :
    (∃ msg, preprocess_interleaved_sample il bl eos = .error msg) ↔
      ((remove_unwanted_images il bl).1 = 0 ∨
        (preprocess_sentences (remove_unwanted_images il bl).2.1
          (remove_unwanted_images il bl).2.2).1 = 0) := by
  rw [except_error_iff_not_isOk]
  simp only [preprocess_interleaved_sample]
  split
  · rename_i h1
    simp [Except.isOk, Except.toBool, h1]
  · rename_i h1
    split
    · rename_i h2
      simp [Except.isOk, Except.toBool, h1, h2]
    · rename_i h2
      simp [Except.isOk, Except.toBool, h1, h2]

/-- The span-masking preprocessor rejects exactly when no sentence survives
punctuation filtering or no sentence is marked. -/
theorem preprocess_pile_error_iff (st : String → List String) (eos sample : String) (r : Rng) :
    (∃ msg, preprocess_pile st eos sample r = .error msg) ↔
      (((st (remove_multiple_newline_limiters (remove_consecutive_spaces sample))).filter
          (fun s => !isPunctuationOnly s)).length = 0 ∨
        (computeMarks ((st (remove_multiple_newline_limiters
            (remove_consecutive_spaces sample))).filter
              (fun s => !isPunctuationOnly s)).length r).1.count true = 0) := by
  rw [except_error_iff_not_isOk]
  simp only [preprocess_pile]
  split
  · rename_i h1
    simp [Except.isOk, Except.toBool, h1]
  · rename_i h1
    split
    · rename_i h2
      simp [Except.isOk, Except.toBool, h1, h2]
    · rename_i h2
      simp [Except.isOk, Except.toBool, h1, h2]

/-- Modelled from the spec (section 7, propagation policy): a pipeline stage
`wds.map(f, handler=log_and_continue)` — `log_and_continue`
(data.py lines 114-117) swallows the error and returns True, so the stage
emits nothing for the failing input and continues with the next one. -/
def mapWithHandler (f : α → Except String β) : List α → List β
  | [] => []
  | a :: xs =>
    match f a with
    | .error _ => mapWithHandler f xs
    | .ok b => b :: mapWithHandler f xs

theorem mapWithHandler_skips (f : α → Except String β) (a : α) (xs : List α) :
    ((∃ msg, f a = .error msg) → mapWithHandler f (a :: xs) = mapWithHandler f xs) ∧
    (∀ b, f a = .ok b → mapWithHandler f (a :: xs) = b :: mapWithHandler f xs) := by
  constructor
  · rintro ⟨msg, hm⟩
    simp [mapWithHandler, hm]
  · intro b hb
    simp [mapWithHandler, hb]

theorem mapWithHandler_sound (f : α → Except String β) :
    ∀ (xs : List α) (y : β), y ∈ mapWithHandler f xs → ∃ x ∈ xs, f x = .ok y := by
  intro xs
  induction xs with
  | nil => intro y hy; simp [mapWithHandler] at hy
  | cons a as ih =>
    intro y hy
    cases hfa : f a with
    | error msg =>
      simp only [mapWithHandler, hfa] at hy
      obtain ⟨x, hx, hfx⟩ := ih y hy
      exact ⟨x, List.mem_cons_of_mem a hx, hfx⟩
    | ok b =>
      simp only [mapWithHandler, hfa] at hy
      rcases List.mem_cons.mp hy with h1 | h2
      · exact ⟨a, List.mem_cons_self a as, by rw [hfa, h1]⟩
      · obtain ⟨x, hx, hfx⟩ := ih y h2
        exact ⟨x, List.mem_cons_of_mem a hx, hfx⟩

/-- A concrete fallible stage used to instantiate the skip-and-continue
behaviour: rejects exactly the input 0. -/
def demoStage (n : Nat) : Except String Nat :=
  if n = 0 then .error "reject" else .ok n

/-- C8: each preprocessor rejects exactly when no content survives its
filtering — the interleaved preprocessor errs iff no valid image or no slot
survives, the span-masking preprocessor errs iff no sentence survives or no
sentence was marked — and the pipeline's mapping stage converts a rejection
into skipping that one sample and continuing: a failing input contributes
nothing, later inputs are still processed, and every emitted element comes
from an accepted input. -/
theorem preprocessors_reject_and_pipeline_skips {α β : Type} :
    (∀ (il : List Entry) (bl : List Bool) (eos : String),
      (∃ msg, preprocess_interleaved_sample il bl eos = .error msg) ↔
        ((remove_unwanted_images il bl).1 = 0 ∨
          (preprocess_sentences (remove_unwanted_images il bl).2.1
            (remove_unwanted_images il bl).2.2).1 = 0)) ∧
    (∀ (st : String → List String) (eos sample : String) (r : Rng),
      (∃ msg, preprocess_pile st eos sample r = .error msg) ↔
        (((st (remove_multiple_newline_limiters (remove_consecutive_spaces sample))).filter
            (fun s => !isPunctuationOnly s)).length = 0 ∨
          (computeMarks ((st (remove_multiple_newline_limiters
              (remove_consecutive_spaces sample))).filter
                (fun s => !isPunctuationOnly s)).length r).1.count true = 0)) ∧
    (∀ (f : α → Except String β) (a : α) (xs : List α),
      ((∃ msg, f a = .error msg) → mapWithHandler f (a :: xs) = mapWithHandler f xs) ∧
      (∀ b, f a = .ok b → mapWithHandler f (a :: xs) = b :: mapWithHandler f xs)) ∧
    (∀ (f : α → Except String β) (xs : List α) (y : β),
      y ∈ mapWithHandler f xs → ∃ x ∈ xs, f x = .ok y) :=
  ⟨preprocess_interleaved_error_iff, preprocess_pile_error_iff,
    mapWithHandler_skips, mapWithHandler_sound⟩

theorem preprocessors_reject_and_pipeline_skips_witness :
    (∃ msg, preprocess_interleaved_sample interleavedDocIcons interleavedFlagsIcons "E"
      = .error msg) ∧
    mapWithHandler demoStage [0, 1] = mapWithHandler demoStage [1] ∧
    mapWithHandler demoStage [2, 1] = 2 :: mapWithHandler demoStage [1] :=
  ⟨((@preprocessors_reject_and_pipeline_skips Nat Nat).1 interleavedDocIcons
      interleavedFlagsIcons "E").mpr (Or.inl rfl),
    ((@preprocessors_reject_and_pipeline_skips Nat Nat).2.2.1 demoStage 0 [1]).1
      ⟨"reject", rfl⟩,
    ((@preprocessors_reject_and_pipeline_skips Nat Nat).2.2.1 demoStage 2 [1]).2 2 rfl⟩

end OFData
